import Mathlib

/-!
Verification of the token-generation core of the cobrowse demo server
(`server.js`).  The development shallowly embeds `generateToken`, the
`base64url` helper, and the role-selection logic of `handleTokenRequest`
as executable Lean functions over `List Char` (modelling JS strings) and
`List Nat` (modelling byte buffers, every entry `< 256`).  The `Decode`
and `Verify` operations, which the specification requires but the source
repository does not implement, are modelled from the specification text
and are marked as such in their doc comments.
-/

set_option maxRecDepth 10000
set_option maxHeartbeats 1600000

namespace Cobrowse

/-! ## 32-bit word arithmetic on `Nat`

Machine words are plain naturals kept below `2 ^ 32`; every operation
reduces through `Nat` division, remainder, addition and multiplication so
that the kernel can evaluate concrete instances quickly. -/

/-- Exclusive-or of two 32-bit words. -/
def xor32 (a b : Nat) : Nat := (a ^^^ b) % 4294967296

/-- Conjunction of two 32-bit words. -/
def and32 (a b : Nat) : Nat := a &&& b

/-- Complement of a 32-bit word: exclusive-or against all 32 one bits. -/
def not32 (a : Nat) : Nat := (a % 4294967296) ^^^ 4294967295

/-- Addition of two 32-bit words, wrapping modulo `2 ^ 32`. -/
def add32 (a b : Nat) : Nat := (a + b) % 4294967296

/-- Right rotation of a 32-bit word by `k` bits. -/
def rotr32 (a k : Nat) : Nat :=
  (a / 2 ^ k + a % 2 ^ k * 2 ^ (32 - k)) % 4294967296

/-- Logical right shift of a 32-bit word by `k` bits. -/
def shr32 (a k : Nat) : Nat := a / 2 ^ k

/-- Exclusive-or of two bytes. -/
def xor8 (a b : Nat) : Nat := (a ^^^ b) % 256

/-! ## SHA-256

Standard FIPS 180-4 SHA-256 over byte lists, used to give `crypto
.createHmac('sha256', …)` from the source a concrete executable meaning. -/

/-- Round constants of SHA-256. -/
def shaK : List Nat :=
  [1116352408, 1899447441, 3049323471, 3921009573, 961987163, 1508970993,
   2453635748, 2870763221, 3624381080, 310598401, 607225278, 1426881987,
   1925078388, 2162078206, 2614888103, 3248222580, 3835390401, 4022224774,
   264347078, 604807628, 770255983, 1249150122, 1555081692, 1996064986,
   2554220882, 2821834349, 2952996808, 3210313671, 3336571891, 3584528711,
   113926993, 338241895, 666307205, 773529912, 1294757372, 1396182291,
   1695183700, 1986661051, 2177026350, 2456956037, 2730485921, 2820302411,
   3259730800, 3345764771, 3516065817, 3600352804, 4094571909, 275423344,
   430227734, 506948616, 659060556, 883997877, 958139571, 1322822218,
   1537002063, 1747873779, 1955562222, 2024104815, 2227730452, 2361852424,
   2428436474, 2756734187, 3204031479, 3329325298]

/-- Working state of SHA-256: eight 32-bit words. -/
abbrev Sha256State := Nat × Nat × Nat × Nat × Nat × Nat × Nat × Nat

/-- Initial hash state of SHA-256. -/
def shaH0 : Sha256State :=
  (0x6a09e667, 0xbb67ae85, 0x3c6ef372, 0xa54ff53a,
   0x510e527f, 0x9b05688c, 0x1f83d9ab, 0x5be0cd19)

/-- Big-endian byte rendering of a natural in `k` bytes. -/
def natToBytesBE : Nat → Nat → List Nat
  | 0, _ => []
  | k + 1, n => natToBytesBE k (n / 256) ++ [n % 256]

/-- Group a byte list into big-endian 32-bit words, four bytes at a time. -/
def bytesToWords : List Nat → List Nat
  | b1 :: b2 :: b3 :: b4 :: rest =>
      (((b1 * 256 + b2) * 256 + b3) * 256 + b4) :: bytesToWords rest
  | _ => []

/-- Message padding of SHA-256: a `0x80` byte, zeros to 56 mod 64, then the
bit length in eight big-endian bytes. -/
def sha256Pad (msg : List Nat) : List Nat :=
  msg ++ 0x80 :: List.replicate ((119 - msg.length % 64) % 64) 0
      ++ natToBytesBE 8 (8 * msg.length)

/-- Choice function of the SHA-256 round. -/
def shaCh (e f g : Nat) : Nat := xor32 (and32 e f) (and32 (not32 e) g)

/-- Majority function of the SHA-256 round. -/
def shaMaj (a b c : Nat) : Nat := xor32 (and32 a b) (xor32 (and32 a c) (and32 b c))

/-- Big sigma-0 mixing function. -/
def bigSigma0 (a : Nat) : Nat := xor32 (rotr32 a 2) (xor32 (rotr32 a 13) (rotr32 a 22))

/-- Big sigma-1 mixing function. -/
def bigSigma1 (e : Nat) : Nat := xor32 (rotr32 e 6) (xor32 (rotr32 e 11) (rotr32 e 25))

/-- Small sigma-0 schedule function. -/
def smallSigma0 (x : Nat) : Nat := xor32 (rotr32 x 7) (xor32 (rotr32 x 18) (shr32 x 3))

/-- Small sigma-1 schedule function. -/
def smallSigma1 (x : Nat) : Nat := xor32 (rotr32 x 17) (xor32 (rotr32 x 19) (shr32 x 10))

/-- Message-schedule extension over the reversed word list: prepend `fuel`
further words, each mixed from the words 2, 7, 15 and 16 places back, which
sit at positions 1, 6, 14 and 15 of the reversed list. -/
def schedExtend : Nat → List Nat → List Nat
  | 0, rws => rws
  | fuel + 1, rws =>
      let w := add32 (add32 (smallSigma1 (rws.getD 1 0)) (rws.getD 6 0))
                     (add32 (smallSigma0 (rws.getD 14 0)) (rws.getD 15 0))
      schedExtend fuel (w :: rws)

/-- Compression rounds: consume one round constant and one schedule word per
step, updating the eight-word working state. -/
def sha256Rounds : List Nat → List Nat → Sha256State → Sha256State
  | k :: ks, w :: ws, (a, b, c, d, e, f, g, h) =>
      let t1 := add32 h (add32 (bigSigma1 e) (add32 (shaCh e f g) (add32 k w)))
      let t2 := add32 (bigSigma0 a) (shaMaj a b c)
      sha256Rounds ks ws (add32 t1 t2, a, b, c, add32 d t1, e, f, g)
  | _, _, s => s

/-- Pointwise wrapping addition of two hash states. -/
def addState : Sha256State → Sha256State → Sha256State
  | (a1, b1, c1, d1, e1, f1, g1, h1), (a2, b2, c2, d2, e2, f2, g2, h2) =>
      (add32 a1 a2, add32 b1 b2, add32 c1 c2, add32 d1 d2,
       add32 e1 e2, add32 f1 f2, add32 g1 g2, add32 h1 h2)

/-- Compression of a single 16-word block into the running hash state. -/
def sha256Block (block : List Nat) (h : Sha256State) : Sha256State :=
  addState h (sha256Rounds shaK (schedExtend 48 block.reverse).reverse h)

/-- Fold the block compression over a padded message given as words, the
fuel bounding the number of blocks. -/
def sha256Blocks : Nat → List Nat → Sha256State → Sha256State
  | 0, _, h => h
  | fuel + 1, ws, h =>
      if ws = [] then h
      else sha256Blocks fuel (ws.drop 16) (sha256Block (ws.take 16) h)

/-- Big-endian byte rendering of the final hash state. -/
def stateBytes : Sha256State → List Nat
  | (a, b, c, d, e, f, g, h) =>
      natToBytesBE 4 a ++ natToBytesBE 4 b ++ natToBytesBE 4 c ++ natToBytesBE 4 d
      ++ natToBytesBE 4 e ++ natToBytesBE 4 f ++ natToBytesBE 4 g ++ natToBytesBE 4 h

/-- SHA-256 digest of a byte list, as 32 bytes. -/
def sha256 (msg : List Nat) : List Nat :=
  stateBytes (sha256Blocks (sha256Pad msg).length (bytesToWords (sha256Pad msg)) shaH0)

/-- HMAC-SHA256 of a message under a key, both byte lists, as 32 bytes. -/
def hmacSha256 (key msg : List Nat) : List Nat :=
  let k0 := if 64 < key.length then sha256 key else key
  let kp := k0 ++ List.replicate (64 - k0.length) 0
  sha256 (kp.map (fun b => xor8 b 0x5c) ++ sha256 (kp.map (fun b => xor8 b 0x36) ++ msg))

/-! ## Decimal rendering of naturals and integers -/

/-- Decimal digit character for a value below ten. -/
def digitChar (d : Nat) : Char := Char.ofNat (48 + d % 10)

/-- Decimal digit list of a natural, most significant digit first, with an
explicit fuel; `natReprChars` instantiates the fuel so that it never runs
out. -/
def natDigitsAux : Nat → Nat → List Char
  | 0, _ => []
  | fuel + 1, n => if n = 0 then [] else natDigitsAux fuel (n / 10) ++ [digitChar (n % 10)]

/-- Decimal rendering of a natural number, as JavaScript prints a
nonnegative integer. -/
def natReprChars (n : Nat) : List Char :=
  if n = 0 then ['0'] else natDigitsAux n n

/-- Decimal rendering of an integer, as `JSON.stringify` prints it. -/
def intReprChars (i : Int) : List Char :=
  if i < 0 then '-' :: natReprChars i.natAbs else natReprChars i.natAbs

/-! ## UTF-8 -/

/-- UTF-8 bytes of one character. -/
def utf8Char (c : Char) : List Nat :=
  let n := c.toNat
  if n < 128 then [n]
  else if n < 2048 then [192 + n / 64, 128 + n % 64]
  else if n < 65536 then [224 + n / 4096, 128 + n / 64 % 64, 128 + n % 64]
  else [240 + n / 262144, 128 + n / 4096 % 64, 128 + n / 64 % 64, 128 + n % 64]

/-- UTF-8 bytes of a character list, modelling `Buffer.from(str)` on a
JavaScript string. -/
def utf8Bytes : List Char → List Nat
  | [] => []
  | c :: cs => utf8Char c ++ utf8Bytes cs

/-! ## Base64 -/

/-- Character of the standard base64 alphabet for a sextet below 64. -/
def b64Char (s : Nat) : Char :=
  if s < 26 then Char.ofNat (s + 65)
  else if s < 52 then Char.ofNat (s + 71)
  else if s < 62 then Char.ofNat (s - 4)
  else if s = 62 then '+' else '/'

/-- Standard base64 with `=` padding, modelling `Buffer.toString('base64')`
and `crypto…digest('base64')`. -/
def b64StdEncode : List Nat → List Char
  | [] => []
  | [b1] => [b64Char (b1 / 4), b64Char (b1 % 4 * 16), '=', '=']
  | [b1, b2] => [b64Char (b1 / 4), b64Char (b1 % 4 * 16 + b2 / 16), b64Char (b2 % 16 * 4), '=']
  | b1 :: b2 :: b3 :: rest =>
      b64Char (b1 / 4) :: b64Char (b1 % 4 * 16 + b2 / 16) ::
      b64Char (b2 % 16 * 4 + b3 / 64) :: b64Char (b3 % 64) :: b64StdEncode rest

/-- Global character replacement, modelling one `.replace(/x/g, y)` call. -/
def replAll (a b : Char) (l : List Char) : List Char :=
  l.map (fun c => if c = a then b else c)

/-- URL-safe unpadded base64 as the source computes it: standard base64,
then `+`→`-`, then `/`→`_`, then removal of every `=`. -/
def b64UrlEncode (bs : List Nat) : List Char :=
  (replAll '/' '_' (replAll '+' '-' (b64StdEncode bs))).filter (fun c => c ≠ '=')

/-- Character of the URL-safe base64 alphabet for a sextet below 64. -/
def b64UrlChar (s : Nat) : Char :=
  if s < 26 then Char.ofNat (s + 65)
  else if s < 52 then Char.ofNat (s + 71)
  else if s < 62 then Char.ofNat (s - 4)
  else if s = 62 then '-' else '_'

/-- Direct chunked description of URL-safe unpadded base64, used as the
reference form in proofs about `b64UrlEncode`. -/
def b64UrlDirect : List Nat → List Char
  | [] => []
  | [b1] => [b64UrlChar (b1 / 4), b64UrlChar (b1 % 4 * 16)]
  | [b1, b2] => [b64UrlChar (b1 / 4), b64UrlChar (b1 % 4 * 16 + b2 / 16), b64UrlChar (b2 % 16 * 4)]
  | b1 :: b2 :: b3 :: rest =>
      b64UrlChar (b1 / 4) :: b64UrlChar (b1 % 4 * 16 + b2 / 16) ::
      b64UrlChar (b2 % 16 * 4 + b3 / 64) :: b64UrlChar (b3 % 64) :: b64UrlDirect rest

/-! ## JSON serialization -/

/-- Lowercase hexadecimal digit character for a value below 16. -/
def hexDigitChar (d : Nat) : Char :=
  if d < 10 then Char.ofNat (48 + d) else Char.ofNat (87 + d)

/-- JSON escape of one character, as `JSON.stringify` escapes the characters
of a string value. -/
def jsonEscChar (c : Char) : List Char :=
  if c = '"' then ['\\', '"']
  else if c = '\\' then ['\\', '\\']
  else if c.toNat = 8 then ['\\', 'b']
  else if c.toNat = 9 then ['\\', 't']
  else if c.toNat = 10 then ['\\', 'n']
  else if c.toNat = 12 then ['\\', 'f']
  else if c.toNat = 13 then ['\\', 'r']
  else if c.toNat < 32 then ['\\', 'u', '0', '0', hexDigitChar (c.toNat / 16), hexDigitChar (c.toNat % 16)]
  else [c]

/-- JSON escape of a character list. -/
def jsonEscape : List Char → List Char
  | [] => []
  | c :: cs => jsonEscChar c ++ jsonEscape cs

/-! ## The data model of the token -/

/-- Claims payload of a token, with the exact field names and field order of
the `payload` object literal in `generateToken`. -/
structure Claims where
  app_key : List Char
  role_type : Int
  iat : Nat
  exp : Nat
  user_id : List Char
  user_name : List Char
  enable_byop : Nat
deriving DecidableEq

/-- Header of a token. -/
structure TokenHeader where
  alg : List Char
  typ : List Char
deriving DecidableEq

/-- Fixed header `\x7b alg: 'HS256', typ: 'JWT' \x7d` of every token. -/
def fixedHeader : TokenHeader := ⟨"HS256".data, "JWT".data⟩

/-- JSON serialization of a header object in insertion order, as
`JSON.stringify` prints it. -/
def jsonHeader (h : TokenHeader) : List Char :=
  ("\x7b\"alg\":\"").data ++ jsonEscape h.alg
  ++ ("\",\"typ\":\"").data ++ jsonEscape h.typ
  ++ ("\"\x7d").data

/-- JSON serialization of a claims object in insertion order, as
`JSON.stringify` prints it. -/
def jsonClaims (c : Claims) : List Char :=
  ("\x7b\"app_key\":\"").data ++ jsonEscape c.app_key
  ++ ("\",\"role_type\":").data ++ intReprChars c.role_type
  ++ (",\"iat\":").data ++ natReprChars c.iat
  ++ (",\"exp\":").data ++ natReprChars c.exp
  ++ (",\"user_id\":\"").data ++ jsonEscape c.user_id
  ++ ("\",\"user_name\":\"").data ++ jsonEscape c.user_name
  ++ ("\",\"enable_byop\":").data ++ natReprChars c.enable_byop
  ++ ("\x7d").data

/-! ## Token generation (`generateToken` of `server.js`) -/

/-- Configured token lifetime in seconds, `CONFIG.TOKEN_EXPIRY`. -/
def tokenExpiry : Nat := 3600

/-- Identifier generated per call: the text `user_` followed by the
millisecond clock reading, modelling the template around `Date.now()`. -/
def userIdChars (idMs : Nat) : List Char := "user_".data ++ natReprChars idMs

/-- Claims object assembled by `generateToken`: `iat` is the whole-second
clock reading, `exp` adds the configured lifetime, both identifier fields
share the fresh id, and `enable_byop` is hard-coded to 1.  `nowMs` and
`idMs` model the two separate `Date.now()` readings of the source. -/
def buildClaims (key : List Char) (role : Int) (nowMs idMs : Nat) : Claims :=
  { app_key := key
    role_type := role
    iat := nowMs / 1000
    exp := nowMs / 1000 + tokenExpiry
    user_id := userIdChars idMs
    user_name := userIdChars idMs
    enable_byop := 1 }

/-- Signing input of the token: encoded header, a dot, encoded claims. -/
def signingInput (key : List Char) (role : Int) (nowMs idMs : Nat) : List Char :=
  b64UrlEncode (utf8Bytes (jsonHeader fixedHeader))
  ++ '.' :: b64UrlEncode (utf8Bytes (jsonClaims (buildClaims key role nowMs idMs)))

/-- Signature segment: URL-safe base64 of the HMAC-SHA256 digest of the
signing input under the secret. -/
def signatureSegment (key secret : List Char) (role : Int) (nowMs idMs : Nat) : List Char :=
  b64UrlEncode (hmacSha256 (utf8Bytes secret) (utf8Bytes (signingInput key role nowMs idMs)))

/-- Token returned by `generateToken`: the signing input, a dot, and the
signature segment. -/
def generateToken (key secret : List Char) (role : Int) (nowMs idMs : Nat) : List Char :=
  signingInput key role nowMs idMs ++ '.' :: signatureSegment key secret role nowMs idMs

/-! ## HTTP token boundary (`handleTokenRequest` of `server.js`) -/

/-- Request method, as far as the handler distinguishes it. -/
inductive HttpMethod
  | GET
  | POST
  | other
deriving DecidableEq

/-- Shape of a `/token` request as the handler sees it: the method and the
numeric `role` field of the parsed JSON body.  `none` models a missing
field, an empty body, or an unparsable body (which `parseBody` resolves to
an empty object). -/
structure TokenRequest where
  method : HttpMethod
  bodyRole : Option Int
deriving DecidableEq

/-- Placeholder value of `CONFIG.SDK_KEY`. -/
def placeholderKey : List Char := "YOUR_SDK_KEY_HERE".data

/-- Placeholder value of `CONFIG.SDK_SECRET`. -/
def placeholderSecret : List Char := "YOUR_SDK_SECRET_HERE".data

/-- Configured routing domain `CONFIG.ZOOM_DOMAIN`. -/
def zoomDomain : List Char := "us01-zcb.zoom.us".data

/-- Credential part of `CONFIG`, fed from environment variables. -/
structure ServerConfig where
  sdkKey : List Char
  sdkSecret : List Char
deriving DecidableEq

/-- JSON body of a successful `/token` response. -/
structure TokenResponse where
  token : List Char
  role : Int
  expiresIn : Nat
  domain : List Char
deriving DecidableEq

/-- Outcome of the `/token` handler: a 200 response with a body, or the 500
configuration error. -/
inductive HttpReply
  | ok (resp : TokenResponse)
  | configError
deriving DecidableEq

/-- Role selected by `handleTokenRequest`: it starts at 1, and only a POST
body with a truthy numeric `role` field overrides it
(`role = body.role || role`; the number 0 is falsy in JavaScript). -/
def effectiveRole (req : TokenRequest) : Int :=
  if req.method = HttpMethod.POST then
    match req.bodyRole with
    | some n => if n ≠ 0 then n else 1
    | none => 1
  else 1

/-- Model of `handleTokenRequest`: select the role, reject placeholder
credentials with the 500 error, otherwise generate a token and echo the
role, lifetime and domain in the response body. -/
def handleTokenRequest (cfg : ServerConfig) (req : TokenRequest) (nowMs idMs : Nat) : HttpReply :=
  let role := effectiveRole req
  if cfg.sdkKey = placeholderKey ∨ cfg.sdkSecret = placeholderSecret then
    .configError
  else
    .ok { token := generateToken cfg.sdkKey cfg.sdkSecret role nowMs idMs
          role := role
          expiresIn := tokenExpiry
          domain := zoomDomain }

/-! ## Decode and Verify

The source repository only implements encoding; the specification defines
`Decode` and `Verify` as the operations needed to test it.  Everything in
this section is modelled from the specification text. -/

/-- Error kinds of the specification. -/
inductive TokenError
  | InvalidArgument
  | MalformedToken
  | ConfigurationMissing
deriving DecidableEq

/-- Decidable equality on `Except` results, to let witnesses evaluate. -/
instance instDecEqExcept {ε α : Type} [DecidableEq ε] [DecidableEq α] :
    DecidableEq (Except ε α) := fun a b =>
  match a, b with
  | .ok x, .ok y =>
    match decEq x y with
    | isTrue h => isTrue (by rw [h])
    | isFalse h => isFalse (by intro hc; cases hc; exact h rfl)
  | .error x, .error y =>
    match decEq x y with
    | isTrue h => isTrue (by rw [h])
    | isFalse h => isFalse (by intro hc; cases hc; exact h rfl)
  | .ok _, .error _ => isFalse (by intro hc; cases hc)
  | .error _, .ok _ => isFalse (by intro hc; cases hc)

/-- Split of a character list at every dot, with `n` dots yielding `n + 1`
segments, as JavaScript's `split('.')` behaves. -/
def splitDots : List Char → List (List Char)
  | [] => [[]]
  | c :: rest =>
    if c = '.' then [] :: splitDots rest
    else
      match splitDots rest with
      | [] => [[c]]
      | seg :: segs => (c :: seg) :: segs

/-- Modelled from the spec: sextet value of a URL-safe base64 character
(the repository implements no decoder). -/
def b64CharVal (c : Char) : Option Nat :=
  let n := c.toNat
  if 65 ≤ n ∧ n ≤ 90 then some (n - 65)
  else if 97 ≤ n ∧ n ≤ 122 then some (n - 71)
  else if 48 ≤ n ∧ n ≤ 57 then some (n + 4)
  else if c = '-' then some 62
  else if c = '_' then some 63
  else none

/-- Modelled from the spec: URL-safe base64 decoding that tolerates absent
padding, failing on any character outside the alphabet and on impossible
segment lengths (the repository implements no decoder). -/
def b64UrlDecode : List Char → Option (List Nat)
  | [] => some []
  | [_] => none
  | [c1, c2] => do
      let s1 ← b64CharVal c1
      let s2 ← b64CharVal c2
      some [s1 * 4 + s2 / 16]
  | [c1, c2, c3] => do
      let s1 ← b64CharVal c1
      let s2 ← b64CharVal c2
      let s3 ← b64CharVal c3
      some [s1 * 4 + s2 / 16, s2 % 16 * 16 + s3 / 4]
  | c1 :: c2 :: c3 :: c4 :: rest => do
      let s1 ← b64CharVal c1
      let s2 ← b64CharVal c2
      let s3 ← b64CharVal c3
      let s4 ← b64CharVal c4
      let bs ← b64UrlDecode rest
      some ((s1 * 4 + s2 / 16) :: (s2 % 16 * 16 + s3 / 4) :: (s3 % 4 * 64 + s4) :: bs)

/-- Modelled from the spec: decoding of a single UTF-8 sequence at the
head of a byte list, giving the code point and the remaining bytes (the
repository implements no decoder). -/
def utf8DecodeOne : List Nat → Option (Nat × List Nat)
  | [] => none
  | b1 :: rest =>
    if b1 < 128 then some (b1, rest)
    else if b1 < 192 then none
    else if b1 < 224 then
      match rest with
      | b2 :: rest2 =>
        if 128 ≤ b2 ∧ b2 < 192 then some ((b1 - 192) * 64 + (b2 - 128), rest2)
        else none
      | _ => none
    else if b1 < 240 then
      match rest with
      | b2 :: b3 :: rest2 =>
        if (128 ≤ b2 ∧ b2 < 192) ∧ (128 ≤ b3 ∧ b3 < 192) then
          some (((b1 - 224) * 64 + (b2 - 128)) * 64 + (b3 - 128), rest2)
        else none
      | _ => none
    else if b1 < 248 then
      match rest with
      | b2 :: b3 :: b4 :: rest2 =>
        if (128 ≤ b2 ∧ b2 < 192) ∧ (128 ≤ b3 ∧ b3 < 192) ∧ (128 ≤ b4 ∧ b4 < 192) then
          some ((((b1 - 240) * 64 + (b2 - 128)) * 64 + (b3 - 128)) * 64 + (b4 - 128), rest2)
        else none
      | _ => none
    else none

/-- Fuelled decoding loop over `utf8DecodeOne`; the fuel only bounds the
number of decoded characters and is instantiated large enough by
`utf8Decode`. -/
def utf8DecodeLoop : Nat → List Nat → Option (List Char)
  | _, [] => some []
  | 0, _ :: _ => none
  | fuel + 1, b :: bs =>
    match utf8DecodeOne (b :: bs) with
    | some (n, rest) =>
      if Nat.isValidChar n then
        match utf8DecodeLoop fuel rest with
        | some cs => some (Char.ofNat n :: cs)
        | none => none
      else none
    | none => none

/-- Modelled from the spec: UTF-8 decoding of a byte list, failing on any
sequence that does not reassemble to valid Unicode scalar values (the
repository implements no decoder). -/
def utf8Decode (bs : List Nat) : Option (List Char) := utf8DecodeLoop bs.length bs

/-- Expected literal consumption: succeed with the remainder exactly when
the input starts with the given character list. -/
def expectChars : List Char → List Char → Option (List Char)
  | [], l => some l
  | _ :: _, [] => none
  | e :: es, c :: cs => if c = e then expectChars es cs else none

/-- Value of a hexadecimal digit character. -/
def hexVal (c : Char) : Option Nat :=
  let n := c.toNat
  if 48 ≤ n ∧ n ≤ 57 then some (n - 48)
  else if 97 ≤ n ∧ n ≤ 102 then some (n - 87)
  else if 65 ≤ n ∧ n ≤ 70 then some (n - 55)
  else none

/-- Modelled from the spec: scan of one unit of a JSON string body — the
closing quote (`none`), or one plain or escaped character (`some c`) — with
the remaining input.  Resolves exactly the escapes `JSON.stringify` can
produce, plus the escaped slash JSON allows. -/
def scanJsonStep : List Char → Option (Option Char × List Char)
  | [] => none
  | c :: rest =>
    if c = '"' then some (none, rest)
    else if c = '\\' then
      match rest with
      | [] => none
      | e :: rest2 =>
        if e = '"' then some (some '"', rest2)
        else if e = '\\' then some (some '\\', rest2)
        else if e = '/' then some (some '/', rest2)
        else if e = 'b' then some (some (Char.ofNat 8), rest2)
        else if e = 't' then some (some (Char.ofNat 9), rest2)
        else if e = 'n' then some (some (Char.ofNat 10), rest2)
        else if e = 'f' then some (some (Char.ofNat 12), rest2)
        else if e = 'r' then some (some (Char.ofNat 13), rest2)
        else if e = 'u' then
          match rest2 with
          | h1 :: h2 :: h3 :: h4 :: rest3 => do
              let d1 ← hexVal h1
              let d2 ← hexVal h2
              let d3 ← hexVal h3
              let d4 ← hexVal h4
              let n := ((d1 * 16 + d2) * 16 + d3) * 16 + d4
              if Nat.isValidChar n then some (some (Char.ofNat n), rest3) else none
          | _ => none
        else none
    else some (some c, rest)

/-- Fuelled loop over `scanJsonStep`, accumulating characters until the
closing quote; the fuel is instantiated large enough by `scanJsonString`. -/
def scanJsonLoop : Nat → List Char → Option (List Char × List Char)
  | _, [] => none
  | 0, _ :: _ => none
  | fuel + 1, l =>
    match scanJsonStep l with
    | some (none, rest) => some ([], rest)
    | some (some c, rest) => (scanJsonLoop fuel rest).map (fun p => (c :: p.1, p.2))
    | none => none

/-- Modelled from the spec: scan of a JSON string body up to its closing
quote, resolving the escapes `JSON.stringify` can produce, returning the
decoded characters and the input after the quote. -/
def scanJsonString (l : List Char) : Option (List Char × List Char) :=
  scanJsonLoop l.length l

/-- Decimal digit test on a character. -/
def isDigitChar (c : Char) : Bool := 48 ≤ c.toNat && c.toNat ≤ 57

/-- Longest digit run at the head of the input, and the remainder. -/
def takeDigits : List Char → List Char × List Char
  | [] => ([], [])
  | c :: rest =>
    if isDigitChar c then
      let p := takeDigits rest
      (c :: p.1, p.2)
    else ([], c :: rest)

/-- Value of a decimal digit run, accumulated left to right. -/
def digitsVal : List Char → Nat → Nat
  | [], acc => acc
  | c :: rest, acc => digitsVal rest (acc * 10 + (c.toNat - 48))

/-- Scan of a natural number literal: the maximal leading digit run. -/
def scanNat (l : List Char) : Option (Nat × List Char) :=
  let p := takeDigits l
  if p.1 = [] then none else some (digitsVal p.1 0, p.2)

/-- Scan of an integer literal: an optional minus sign, then digits. -/
def scanInt (l : List Char) : Option (Int × List Char) :=
  match l with
  | c :: rest =>
      if c = '-' then (scanNat rest).map (fun p => (-(p.1 : Int), p.2))
      else (scanNat l).map (fun p => ((p.1 : Int), p.2))
  | [] => none

/-- Modelled from the spec: JSON parse of the header object shape
`\x7b"alg": …, "typ": … \x7d` that the encoder serializes. -/
def parseHeaderJson (l : List Char) : Option TokenHeader := do
  let r ← expectChars ("\x7b\"alg\":\"").data l
  let (alg, r) ← scanJsonString r
  let r ← expectChars (",\"typ\":\"").data r
  let (typ, r) ← scanJsonString r
  let r ← expectChars ("\x7d").data r
  if r = [] then some ⟨alg, typ⟩ else none

/-- String-valued field step: consume the literal field opener (ending in
the opening quote), then scan the JSON string value. -/
def fieldString (lit l : List Char) : Option (List Char × List Char) :=
  match expectChars lit l with
  | none => none
  | some r => scanJsonString r

/-- Natural-valued field step: consume the literal field opener, then scan
the decimal literal. -/
def fieldNat (lit l : List Char) : Option (Nat × List Char) :=
  match expectChars lit l with
  | none => none
  | some r => scanNat r

/-- Integer-valued field step: consume the literal field opener, then scan
the signed decimal literal. -/
def fieldInt (lit l : List Char) : Option (Int × List Char) :=
  match expectChars lit l with
  | none => none
  | some r => scanInt r

/-- Closing step: consume the final brace and require the input to end. -/
def fieldEnd (l : List Char) : Option Unit :=
  match expectChars ("\x7d").data l with
  | some [] => some ()
  | _ => none

/-- Modelled from the spec: JSON parse of the claims object shape the
encoder serializes, with the exact field names and order of §3 of the
specification. -/
def parseClaimsJson (l : List Char) : Option Claims :=
  match fieldString ("\x7b\"app_key\":\"").data l with
  | none => none
  | some (key, r) =>
  match fieldInt (",\"role_type\":").data r with
  | none => none
  | some (role, r) =>
  match fieldNat (",\"iat\":").data r with
  | none => none
  | some (iat, r) =>
  match fieldNat (",\"exp\":").data r with
  | none => none
  | some (e, r) =>
  match fieldString (",\"user_id\":\"").data r with
  | none => none
  | some (uid, r) =>
  match fieldString (",\"user_name\":\"").data r with
  | none => none
  | some (uname, r) =>
  match fieldNat (",\"enable_byop\":").data r with
  | none => none
  | some (byop, r) =>
  match fieldEnd r with
  | none => none
  | some _ => some ⟨key, role, iat, e, uid, uname, byop⟩

/-- Modelled from the spec: `Decode` splits the token on dots, fails with
`MalformedToken` unless there are exactly three segments or when a segment
does not base64-decode or JSON-parse, and ignores the signature segment. -/
def decodeToken (t : List Char) : Except TokenError (TokenHeader × Claims) :=
  match splitDots t with
  | [h, p, _] =>
    match b64UrlDecode h with
    | none => .error .MalformedToken
    | some hb =>
      match utf8Decode hb with
      | none => .error .MalformedToken
      | some hcs =>
        match parseHeaderJson hcs with
        | none => .error .MalformedToken
        | some hdr =>
          match b64UrlDecode p with
          | none => .error .MalformedToken
          | some pb =>
            match utf8Decode pb with
            | none => .error .MalformedToken
            | some pcs =>
              match parseClaimsJson pcs with
              | none => .error .MalformedToken
              | some cl => .ok (hdr, cl)
  | _ => .error .MalformedToken

/-- Modelled from the spec: `Verify` splits the token, fails with
`MalformedToken` unless there are exactly three segments, recomputes the
signature over the first two segments under the given secret and compares
it with the third segment. -/
def verifyToken (t : List Char) (secret : List Char) : Except TokenError Bool :=
  match splitDots t with
  | [h, p, s] =>
      .ok (decide (s = b64UrlEncode (hmacSha256 (utf8Bytes secret) (utf8Bytes (h ++ '.' :: p)))))
  | _ => .error .MalformedToken

/-! ## Facts about characters and decimal digits -/

/-- Conversion to `Nat` inverts `Char.ofNat` on valid code points. -/
theorem toNat_ofNat_valid {n : Nat} (h : n.isValidChar) : (Char.ofNat n).toNat = n := by
  unfold Char.ofNat
  rw [dif_pos h]
  rfl

/-- Code points of characters lie below `0x110000`. -/
theorem char_toNat_lt (c : Char) : c.toNat < 1114112 := by
  have h := c.valid
  rcases h with h | ⟨h1, h2⟩ <;> (unfold Char.toNat; omega)

/-- Characters are equal when their code points are. -/
theorem char_eq_of_toNat_eq {a b : Char} (h : a.toNat = b.toNat) : a = b := by
  have := congrArg Char.ofNat h
  rwa [Char.ofNat_toNat, Char.ofNat_toNat] at this

/-- Digit characters, as `digitChar` produces them. -/
theorem digitChar_isDigit {d : Nat} (h : d < 10) : isDigitChar (digitChar d) = true := by
  interval_cases d <;> decide

/-- Code point of a produced digit character. -/
theorem digitChar_toNat {d : Nat} (h : d < 10) : (digitChar d).toNat = 48 + d := by
  interval_cases d <;> decide

/-- Fuel irrelevance of `natDigitsAux` at zero. -/
theorem natDigitsAux_zero : ∀ fuel, natDigitsAux fuel 0 = [] := by
  intro fuel
  cases fuel <;> simp [natDigitsAux]

/-- Fuel irrelevance of `natDigitsAux`: any two sufficient fuels agree. -/
theorem natDigitsAux_fuel : ∀ f1 f2 n, n ≤ f1 → n ≤ f2 →
    natDigitsAux f1 n = natDigitsAux f2 n := by
  intro f1
  induction f1 with
  | zero =>
    intro f2 n h1 _
    have : n = 0 := by omega
    subst this
    rw [natDigitsAux_zero, natDigitsAux_zero]
  | succ f ih =>
    intro f2 n h1 h2
    by_cases hn : n = 0
    · subst hn
      rw [natDigitsAux_zero, natDigitsAux_zero]
    · obtain ⟨f2p, rfl⟩ : ∃ m, f2 = m + 1 := ⟨f2 - 1, by omega⟩
      have hdiv : n / 10 < n := Nat.div_lt_self (by omega) (by omega)
      simp only [natDigitsAux, if_neg hn]
      rw [ih f2p (n / 10) (by omega) (by omega)]

/-- Every character that `natDigitsAux` emits is a decimal digit. -/
theorem natDigitsAux_digits : ∀ fuel n c, c ∈ natDigitsAux fuel n → isDigitChar c = true := by
  intro fuel
  induction fuel with
  | zero => intro n c hc; simp [natDigitsAux] at hc
  | succ f ih =>
    intro n c hc
    by_cases hn : n = 0
    · subst hn; simp [natDigitsAux] at hc
    · simp only [natDigitsAux, if_neg hn, List.mem_append, List.mem_singleton] at hc
      rcases hc with hc | rfl
      · exact ih _ _ hc
      · exact digitChar_isDigit (Nat.mod_lt _ (by omega))

/-- Every character of a decimal rendering is a decimal digit. -/
theorem natReprChars_digits {n : Nat} {c : Char} (hc : c ∈ natReprChars n) :
    isDigitChar c = true := by
  unfold natReprChars at hc
  by_cases hn : n = 0
  · rw [if_pos hn] at hc; simp at hc; subst hc; decide
  · rw [if_neg hn] at hc; exact natDigitsAux_digits _ _ _ hc

/-- Decimal renderings are never empty. -/
theorem natReprChars_ne_nil (n : Nat) : natReprChars n ≠ [] := by
  unfold natReprChars
  by_cases hn : n = 0
  · rw [if_pos hn]; simp
  · rw [if_neg hn]
    obtain ⟨f, rfl⟩ : ∃ m, n = m + 1 := ⟨n - 1, by omega⟩
    simp [natDigitsAux]

/-- Accumulator form of `digitsVal` over an append. -/
theorem digitsVal_append : ∀ xs ys acc,
    digitsVal (xs ++ ys) acc = digitsVal ys (digitsVal xs acc) := by
  intro xs
  induction xs with
  | nil => intro ys acc; rfl
  | cons x xs ih => intro ys acc; simp [digitsVal, ih]

/-- Value of a decimal rendering: `digitsVal` inverts `natReprChars`. -/
theorem digitsVal_natReprChars (n : Nat) : digitsVal (natReprChars n) 0 = n := by
  induction n using Nat.strong_induction_on with
  | _ n ih =>
    by_cases hn : n = 0
    · subst hn; decide
    · have hrepr : natReprChars n = natDigitsAux n n := by
        unfold natReprChars; rw [if_neg hn]
      obtain ⟨f, hf⟩ : ∃ m, n = m + 1 := ⟨n - 1, by omega⟩
      have hstep : natDigitsAux n n = natDigitsAux f (n / 10) ++ [digitChar (n % 10)] := by
        conv_lhs => rw [hf]
        simp only [natDigitsAux, ← hf]
        rw [if_neg hn]
      have hdiv : n / 10 < n := Nat.div_lt_self (by omega) (by omega)
      have hfuel : natDigitsAux f (n / 10) = natDigitsAux (n / 10) (n / 10) :=
        natDigitsAux_fuel f (n / 10) (n / 10) (by omega) (le_refl _)
      by_cases hsmall : n / 10 = 0
      · rw [hrepr, hstep, hfuel, hsmall, natDigitsAux_zero]
        simp [digitsVal, digitChar_toNat (Nat.mod_lt n (by omega) : n % 10 < 10)]
        omega
      · have hrec : digitsVal (natReprChars (n / 10)) 0 = n / 10 := ih _ hdiv
        rw [hrepr, hstep, hfuel, digitsVal_append]
        have : natDigitsAux (n / 10) (n / 10) = natReprChars (n / 10) := by
          unfold natReprChars; rw [if_neg hsmall]
        rw [this, hrec]
        simp [digitsVal, digitChar_toNat (Nat.mod_lt n (by omega) : n % 10 < 10)]
        omega

/-- Heads of digit runs: `takeDigits` takes exactly a leading digit block
followed by a non-digit (or nothing). -/
theorem takeDigits_append : ∀ ds rest, (∀ c ∈ ds, isDigitChar c = true) →
    (∀ c, rest.head? = some c → isDigitChar c = false) →
    takeDigits (ds ++ rest) = (ds, rest) := by
  intro ds
  induction ds with
  | nil =>
    intro rest _ hr
    cases rest with
    | nil => rfl
    | cons c t =>
      have : isDigitChar c = false := hr c rfl
      simp [takeDigits, this]
  | cons d ds ih =>
    intro rest hd hr
    have hdd : isDigitChar d = true := hd d (by simp)
    simp [takeDigits, hdd, ih rest (fun c hc => hd c (by simp [hc])) hr]

/-- Scan of a natural literal followed by a non-digit remainder. -/
theorem scanNat_natReprChars (n : Nat) (rest : List Char)
    (hr : ∀ c, rest.head? = some c → isDigitChar c = false) :
    scanNat (natReprChars n ++ rest) = some (n, rest) := by
  unfold scanNat
  rw [takeDigits_append _ _ (fun c hc => natReprChars_digits hc) hr]
  simp [natReprChars_ne_nil n, digitsVal_natReprChars n]

/-- Scan of an integer literal followed by a non-digit remainder. -/
theorem scanInt_intReprChars (i : Int) (rest : List Char)
    (hr : ∀ c, rest.head? = some c → isDigitChar c = false) :
    scanInt (intReprChars i ++ rest) = some (i, rest) := by
  by_cases hneg : i < 0
  · unfold intReprChars
    rw [if_pos hneg]
    simp only [List.cons_append, scanInt]
    rw [if_true, scanNat_natReprChars _ _ hr]
    simp only [Option.map_some', Option.some.injEq, Prod.mk.injEq, and_true]
    omega
  · unfold intReprChars
    rw [if_neg hneg]
    cases h : natReprChars i.natAbs with
    | nil => exact absurd h (natReprChars_ne_nil _)
    | cons c t =>
      have hcdig : isDigitChar c = true := natReprChars_digits (by rw [h]; simp)
      have hcne : c ≠ '-' := by
        intro hc
        subst hc
        simp [isDigitChar] at hcdig
      rw [List.cons_append]
      simp only [scanInt]
      rw [if_neg hcne, ← List.cons_append, ← h, scanNat_natReprChars _ _ hr]
      simp only [Option.map_some', Option.some.injEq, Prod.mk.injEq, and_true]
      omega

/-! ## UTF-8 roundtrip -/

/-- Bytes that `utf8Char` emits are bytes. -/
theorem utf8Char_lt (c : Char) : ∀ b ∈ utf8Char c, b < 256 := by
  have hlt : c.toNat < 1114112 := char_toNat_lt c
  intro b hb
  simp only [utf8Char] at hb
  split_ifs at hb <;> simp at hb <;> omega

/-- Bytes that `utf8Bytes` emits are bytes. -/
theorem utf8Bytes_lt : ∀ l, ∀ b ∈ utf8Bytes l, b < 256 := by
  intro l
  induction l with
  | nil => intro b hb; simp [utf8Bytes] at hb
  | cons c cs ih =>
    intro b hb
    rcases List.mem_append.mp hb with h | h
    · exact utf8Char_lt c b h
    · exact ih b h

/-- Encodings of single characters are never empty. -/
theorem utf8Char_ne_nil (c : Char) : utf8Char c ≠ [] := by
  simp only [utf8Char]
  split_ifs <;> simp

/-- Successful single decodes consume at least one byte. -/
theorem utf8DecodeOne_length : ∀ l n rest, utf8DecodeOne l = some (n, rest) →
    rest.length < l.length := by
  intro l n rest h
  cases l with
  | nil => simp [utf8DecodeOne] at h
  | cons b1 t =>
    simp only [utf8DecodeOne] at h
    split_ifs at h with h1 h2 h3 h4 h5
    · simp only [Option.some.injEq, Prod.mk.injEq] at h
      obtain ⟨-, rfl⟩ := h
      simp
    · cases t with
      | nil => simp at h
      | cons b2 rest2 =>
        dsimp only at h
        split_ifs at h with hb
        simp only [Option.some.injEq, Prod.mk.injEq] at h
        obtain ⟨-, rfl⟩ := h
        simp only [List.length_cons]
        omega
    · cases t with
      | nil => simp at h
      | cons b2 t2 =>
        cases t2 with
        | nil => simp at h
        | cons b3 rest2 =>
          dsimp only at h
          split_ifs at h with hb
          simp only [Option.some.injEq, Prod.mk.injEq] at h
          obtain ⟨-, rfl⟩ := h
          simp only [List.length_cons]
          omega
    · cases t with
      | nil => simp at h
      | cons b2 t2 =>
        cases t2 with
        | nil => simp at h
        | cons b3 t3 =>
          cases t3 with
          | nil => simp at h
          | cons b4 rest2 =>
            dsimp only at h
            split_ifs at h with hb
            simp only [Option.some.injEq, Prod.mk.injEq] at h
            obtain ⟨-, rfl⟩ := h
            simp only [List.length_cons]
            omega

/-- Fuel irrelevance of the decode loop above the input length. -/
theorem utf8DecodeLoop_fuel : ∀ f1 f2 bs, bs.length ≤ f1 → bs.length ≤ f2 →
    utf8DecodeLoop f1 bs = utf8DecodeLoop f2 bs := by
  intro f1
  induction f1 with
  | zero =>
    intro f2 bs h1 _
    have hbs : bs = [] := List.length_eq_zero.mp (by omega)
    subst hbs
    cases f2 <;> rfl
  | succ f ih =>
    intro f2 bs h1 h2
    cases bs with
    | nil => cases f2 <;> rfl
    | cons b t =>
      obtain ⟨g, rfl⟩ : ∃ g, f2 = g + 1 := ⟨f2 - 1, by simp at h2; omega⟩
      simp only [utf8DecodeLoop]
      cases hone : utf8DecodeOne (b :: t) with
      | none => rfl
      | some p =>
        obtain ⟨n, rest⟩ := p
        have hlen := utf8DecodeOne_length _ _ _ hone
        simp only [List.length_cons] at h1 h2 hlen
        dsimp only
        rw [ih g rest (by omega) (by omega)]

/-- Single decode of an encoded character at the head of a byte stream. -/
theorem utf8DecodeOne_utf8Char (c : Char) (bs : List Nat) :
    utf8DecodeOne (utf8Char c ++ bs) = some (c.toNat, bs) := by
  have hlt : c.toNat < 1114112 := char_toNat_lt c
  simp only [utf8Char]
  by_cases h1 : c.toNat < 128
  · rw [if_pos h1]
    simp only [List.cons_append, List.nil_append, utf8DecodeOne]
    rw [if_pos h1]
  · by_cases h2 : c.toNat < 2048
    · rw [if_neg h1, if_pos h2]
      simp only [List.cons_append, List.nil_append, utf8DecodeOne]
      rw [if_neg (by omega), if_neg (by omega), if_pos (by omega),
        if_pos (by constructor <;> omega)]
      simp only [Option.some.injEq, Prod.mk.injEq, and_true]
      omega
    · by_cases h3 : c.toNat < 65536
      · rw [if_neg h1, if_neg h2, if_pos h3]
        simp only [List.cons_append, List.nil_append, utf8DecodeOne]
        rw [if_neg (by omega), if_neg (by omega), if_neg (by omega), if_pos (by omega),
          if_pos ⟨⟨by omega, by omega⟩, by omega, by omega⟩]
        simp only [Option.some.injEq, Prod.mk.injEq, and_true]
        omega
      · rw [if_neg h1, if_neg h2, if_neg h3]
        simp only [List.cons_append, List.nil_append, utf8DecodeOne]
        rw [if_neg (by omega), if_neg (by omega), if_neg (by omega), if_neg (by omega),
          if_pos (by omega),
          if_pos ⟨⟨by omega, by omega⟩, ⟨by omega, by omega⟩, by omega, by omega⟩]
        simp only [Option.some.injEq, Prod.mk.injEq, and_true]
        omega

/-- Loop form of decoding one encoded character from the head. -/
theorem utf8DecodeLoop_char (c : Char) (bs : List Nat) (fuel : Nat) (hf : bs.length ≤ fuel) :
    utf8DecodeLoop (fuel + 1) (utf8Char c ++ bs)
      = (utf8DecodeLoop bs.length bs).map (fun cs => c :: cs) := by
  have hval : c.toNat.isValidChar := c.valid
  obtain ⟨hd, tl, hsplit⟩ : ∃ hd tl, utf8Char c ++ bs = hd :: tl := by
    cases hc : utf8Char c with
    | nil => exact absurd hc (utf8Char_ne_nil c)
    | cons x xs => exact ⟨x, xs ++ bs, by simp [hc]⟩
  rw [hsplit]
  simp only [utf8DecodeLoop]
  rw [← hsplit, utf8DecodeOne_utf8Char]
  dsimp only
  rw [if_pos hval, Char.ofNat_toNat,
    utf8DecodeLoop_fuel fuel bs.length bs hf (le_refl _)]
  cases utf8DecodeLoop bs.length bs <;> rfl

/-- Decoding one encoded character from the head of a byte stream. -/
theorem utf8Decode_utf8Char (c : Char) (bs : List Nat) :
    utf8Decode (utf8Char c ++ bs) = (utf8Decode bs).map (fun cs => c :: cs) := by
  unfold utf8Decode
  obtain ⟨m, hm, hbm⟩ : ∃ m, (utf8Char c ++ bs).length = m + 1 ∧ bs.length ≤ m := by
    have h1 : 1 ≤ (utf8Char c).length := by
      cases hc : utf8Char c with
      | nil => exact absurd hc (utf8Char_ne_nil c)
      | cons x xs => simp
    refine ⟨(utf8Char c).length + bs.length - 1, by simp; omega, by omega⟩
  rw [hm, utf8DecodeLoop_char c bs m hbm]

/-- UTF-8 decoding inverts UTF-8 encoding. -/
theorem utf8Decode_utf8Bytes (l : List Char) : utf8Decode (utf8Bytes l) = some l := by
  induction l with
  | nil => rfl
  | cons c cs ih =>
    have : utf8Bytes (c :: cs) = utf8Char c ++ utf8Bytes cs := rfl
    rw [this, utf8Decode_utf8Char, ih]
    rfl

/-! ## Base64 facts -/

/-- Character-level effect of the two replacements of the source: the
standard alphabet, `+` and `/` replaced, is the URL-safe alphabet. -/
theorem b64_repl_char (s : Nat) :
    (if (if b64Char s = '+' then '-' else b64Char s) = '/' then '_'
      else if b64Char s = '+' then '-' else b64Char s) = b64UrlChar s := by
  by_cases h : s < 64
  · interval_cases s <;> decide
  · have hc : b64Char s = '/' := by
      unfold b64Char
      rw [if_neg (by omega), if_neg (by omega), if_neg (by omega), if_neg (by omega)]
    have hu : b64UrlChar s = '_' := by
      unfold b64UrlChar
      rw [if_neg (by omega), if_neg (by omega), if_neg (by omega), if_neg (by omega)]
    rw [hc, hu]
    decide

/-- URL-safe base64 characters are never the padding character. -/
theorem b64UrlChar_ne_pad (s : Nat) : b64UrlChar s ≠ '=' := by
  by_cases h : s < 64
  · interval_cases s <;> decide
  · have hu : b64UrlChar s = '_' := by
      unfold b64UrlChar
      rw [if_neg (by omega), if_neg (by omega), if_neg (by omega), if_neg (by omega)]
    rw [hu]
    decide

/-- URL-safe base64 characters are never a dot. -/
theorem b64UrlChar_ne_dot (s : Nat) : b64UrlChar s ≠ '.' := by
  by_cases h : s < 64
  · interval_cases s <;> decide
  · have hu : b64UrlChar s = '_' := by
      unfold b64UrlChar
      rw [if_neg (by omega), if_neg (by omega), if_neg (by omega), if_neg (by omega)]
    rw [hu]
    decide

/-- Rewrite form of `b64UrlChar_ne_pad` for conditional reductions. -/
theorem b64UrlChar_pad_false (s : Nat) : (b64UrlChar s = '=') = False :=
  eq_false (b64UrlChar_ne_pad s)

/-- The source's post-processing of standard base64 equals the direct
URL-safe unpadded encoding. -/
theorem b64UrlEncode_eq_direct : ∀ bs, b64UrlEncode bs = b64UrlDirect bs := by
  intro bs
  induction bs using b64StdEncode.induct with
  | case1 => rfl
  | case2 b1 =>
    simp [b64UrlEncode, replAll, b64StdEncode, b64UrlDirect, b64_repl_char,
      b64UrlChar_pad_false]
  | case3 b1 b2 =>
    simp [b64UrlEncode, replAll, b64StdEncode, b64UrlDirect, b64_repl_char,
      b64UrlChar_pad_false]
  | case4 b1 b2 b3 rest ih =>
    simp [b64UrlEncode, replAll, b64StdEncode, b64UrlDirect, b64_repl_char,
      b64UrlChar_pad_false] at ih ⊢
    exact ih

/-- No character of the direct URL-safe encoding is a dot. -/
theorem b64UrlDirect_no_dot : ∀ bs, '.' ∉ b64UrlDirect bs := by
  intro bs
  induction bs using b64UrlDirect.induct with
  | case1 => simp [b64UrlDirect]
  | case2 b1 =>
    simp [b64UrlDirect]
    exact ⟨fun h => b64UrlChar_ne_dot _ h.symm, fun h => b64UrlChar_ne_dot _ h.symm⟩
  | case3 b1 b2 =>
    simp [b64UrlDirect]
    exact ⟨fun h => b64UrlChar_ne_dot _ h.symm, fun h => b64UrlChar_ne_dot _ h.symm,
      fun h => b64UrlChar_ne_dot _ h.symm⟩
  | case4 b1 b2 b3 rest ih =>
    simp [b64UrlDirect]
    exact ⟨fun h => b64UrlChar_ne_dot _ h.symm, fun h => b64UrlChar_ne_dot _ h.symm,
      fun h => b64UrlChar_ne_dot _ h.symm, fun h => b64UrlChar_ne_dot _ h.symm, ih⟩

/-- No character of the produced URL-safe encoding is a dot. -/
theorem b64UrlEncode_no_dot (bs : List Nat) : '.' ∉ b64UrlEncode bs := by
  rw [b64UrlEncode_eq_direct]
  exact b64UrlDirect_no_dot bs

/-- Sextet values invert the URL-safe alphabet. -/
theorem b64CharVal_urlChar {s : Nat} (h : s < 64) : b64CharVal (b64UrlChar s) = some s := by
  interval_cases s <;> decide

/-- Quotient of a scaled value plus a small remainder. -/
theorem mulAddDivCancel {k : Nat} (hk : 0 < k) (a y : Nat) (hy : y < k) :
    (a * k + y) / k = a := by
  rw [Nat.add_comm, Nat.add_mul_div_right _ _ hk, Nat.div_eq_of_lt hy]
  omega

/-- Remainder of a scaled value plus a small remainder. -/
theorem mulAddModCancel {k : Nat} (a y : Nat) (hy : y < k) :
    (a * k + y) % k = y := by
  rw [Nat.add_comm, Nat.add_mul_mod_self_right, Nat.mod_eq_of_lt hy]

/-- URL-safe base64 decoding inverts the direct encoding on byte lists. -/
theorem b64UrlDecode_direct : ∀ bs, (∀ b ∈ bs, b < 256) →
    b64UrlDecode (b64UrlDirect bs) = some bs := by
  intro bs
  induction bs using b64UrlDirect.induct with
  | case1 => intro _; rfl
  | case2 b1 =>
    intro hb
    have h1 : b1 < 256 := hb b1 (by simp)
    simp only [b64UrlDirect, b64UrlDecode,
      b64CharVal_urlChar (by omega : b1 / 4 < 64),
      b64CharVal_urlChar (by omega : b1 % 4 * 16 < 64)]
    have e1 : b1 % 4 * 16 / 16 = b1 % 4 := by
      have h := @mulAddDivCancel 16 (by norm_num) (b1 % 4) 0 (by norm_num)
      rw [Nat.add_zero] at h
      exact h
    simp only [Option.bind_eq_bind, Option.some_bind, Option.some.injEq, List.cons.injEq, and_true]
    rw [e1]
    omega
  | case3 b1 b2 =>
    intro hb
    have h1 : b1 < 256 := hb b1 (by simp)
    have h2 : b2 < 256 := hb b2 (by simp)
    simp only [b64UrlDirect, b64UrlDecode,
      b64CharVal_urlChar (by omega : b1 / 4 < 64),
      b64CharVal_urlChar (by omega : b1 % 4 * 16 + b2 / 16 < 64),
      b64CharVal_urlChar (by omega : b2 % 16 * 4 < 64)]
    have e1 : (b1 % 4 * 16 + b2 / 16) / 16 = b1 % 4 :=
      mulAddDivCancel (by norm_num) _ _ (by omega)
    have e2 : (b1 % 4 * 16 + b2 / 16) % 16 = b2 / 16 :=
      mulAddModCancel _ _ (by omega)
    have e3 : b2 % 16 * 4 / 4 = b2 % 16 := by
      have h := @mulAddDivCancel 4 (by norm_num) (b2 % 16) 0 (by norm_num)
      rw [Nat.add_zero] at h
      exact h
    simp only [Option.bind_eq_bind, Option.some_bind, Option.some.injEq, List.cons.injEq, and_true]
    rw [e1, e2, e3]
    constructor
    · omega
    · omega
  | case4 b1 b2 b3 rest ih =>
    intro hb
    have h1 : b1 < 256 := hb b1 (by simp)
    have h2 : b2 < 256 := hb b2 (by simp)
    have h3 : b3 < 256 := hb b3 (by simp)
    have hrest : ∀ b ∈ rest, b < 256 := fun b hbr => hb b (by simp [hbr])
    simp only [b64UrlDirect, b64UrlDecode,
      b64CharVal_urlChar (by omega : b1 / 4 < 64),
      b64CharVal_urlChar (by omega : b1 % 4 * 16 + b2 / 16 < 64),
      b64CharVal_urlChar (by omega : b2 % 16 * 4 + b3 / 64 < 64),
      b64CharVal_urlChar (by omega : b3 % 64 < 64)]
    rw [ih hrest]
    have e1 : (b1 % 4 * 16 + b2 / 16) / 16 = b1 % 4 :=
      mulAddDivCancel (by norm_num) _ _ (by omega)
    have e2 : (b1 % 4 * 16 + b2 / 16) % 16 = b2 / 16 :=
      mulAddModCancel _ _ (by omega)
    have e3 : (b2 % 16 * 4 + b3 / 64) / 4 = b2 % 16 :=
      mulAddDivCancel (by norm_num) _ _ (by omega)
    have e4 : (b2 % 16 * 4 + b3 / 64) % 4 = b3 / 64 :=
      mulAddModCancel _ _ (by omega)
    simp only [Option.bind_eq_bind, Option.some_bind, Option.some.injEq, List.cons.injEq, and_true]
    rw [e1, e2, e3, e4]
    exact ⟨by omega, by omega, by omega⟩

/-- URL-safe base64 decoding inverts the source's encoding on byte lists. -/
theorem b64UrlDecode_encode (bs : List Nat) (hb : ∀ b ∈ bs, b < 256) :
    b64UrlDecode (b64UrlEncode bs) = some bs := by
  rw [b64UrlEncode_eq_direct]
  exact b64UrlDecode_direct bs hb

/-! ## Splitting on dots -/

/-- A dot-free list splits into itself alone. -/
theorem splitDots_no_dot : ∀ l, '.' ∉ l → splitDots l = [l] := by
  intro l
  induction l with
  | nil => intro _; rfl
  | cons c t ih =>
    intro h
    have hc : c ≠ '.' := fun hc => h (by simp [hc])
    have ht : '.' ∉ t := fun ht => h (by simp [ht])
    simp only [splitDots, if_neg hc, ih ht]

/-- Splitting a dot-free segment followed by a dot peels one segment. -/
theorem splitDots_append_dot : ∀ xs rest, '.' ∉ xs →
    splitDots (xs ++ '.' :: rest) = xs :: splitDots rest := by
  intro xs
  induction xs with
  | nil => intro rest _; simp [splitDots]
  | cons c t ih =>
    intro rest h
    have hc : c ≠ '.' := fun hc => h (by simp [hc])
    have ht : '.' ∉ t := fun ht => h (by simp [ht])
    simp [splitDots, if_neg hc, ih rest ht]

/-- Three dot-free segments joined by dots split back into themselves. -/
theorem splitDots_three (h p s : List Char) (hh : '.' ∉ h) (hp : '.' ∉ p) (hs : '.' ∉ s) :
    splitDots (h ++ '.' :: (p ++ '.' :: s)) = [h, p, s] := by
  rw [splitDots_append_dot _ _ hh, splitDots_append_dot _ _ hp, splitDots_no_dot _ hs]

/-! ## JSON scanning facts -/

/-- Literal consumption succeeds on its own prefix. -/
theorem expectChars_append : ∀ lit rest, expectChars lit (lit ++ rest) = some rest := by
  intro lit
  induction lit with
  | nil => intro rest; rfl
  | cons e es ih =>
    intro rest
    simp [expectChars, ih]

/-- Hexadecimal values invert the digit rendering. -/
theorem hexVal_hexDigitChar {d : Nat} (h : d < 16) : hexVal (hexDigitChar d) = some d := by
  interval_cases d <;> decide

/-- Escapes of single characters are never empty. -/
theorem jsonEscChar_ne_nil (c : Char) : jsonEscChar c ≠ [] := by
  unfold jsonEscChar
  split_ifs <;> simp

/-- Successful scan steps consume at least one character. -/
theorem scanJsonStep_length : ∀ l oc rest, scanJsonStep l = some (oc, rest) →
    rest.length < l.length := by
  intro l oc rest h
  cases l with
  | nil => simp [scanJsonStep] at h
  | cons c t =>
    by_cases h1 : c = '"'
    · subst h1
      simp [scanJsonStep] at h
      obtain ⟨-, rfl⟩ := h
      simp
    · by_cases h2 : c = '\\'
      · subst h2
        cases t with
        | nil => simp [scanJsonStep] at h
        | cons e t2 =>
          delta scanJsonStep at h
          dsimp only at h
          rw [if_neg h1, if_pos rfl] at h
          split_ifs at h with e1 e2 e3 e4 e5 e6 e7 e8 e9
          all_goals try (simp only [Option.some.injEq, Prod.mk.injEq] at h; obtain ⟨-, rfl⟩ := h; simp only [List.length_cons]; omega)
          cases t2 with
          | nil => simp at h
          | cons x1 t3 =>
            cases t3 with
            | nil => simp at h
            | cons x2 t4 =>
              cases t4 with
              | nil => simp at h
              | cons x3 t5 =>
                cases t5 with
                | nil => simp at h
                | cons x4 rest3 =>
                  dsimp only at h
                  simp only [Option.bind_eq_bind, Option.bind_eq_some] at h
                  obtain ⟨d1, -, d2, -, d3, -, d4, -, h⟩ := h
                  split_ifs at h
                  simp only [Option.some.injEq, Prod.mk.injEq] at h
                  obtain ⟨-, rfl⟩ := h
                  simp only [List.length_cons]
                  omega
      · simp [scanJsonStep, h1, h2] at h
        obtain ⟨-, rfl⟩ := h
        simp

/-- Fuel irrelevance of the string-scan loop above the input length. -/
theorem scanJsonLoop_fuel : ∀ f1 f2 l, l.length ≤ f1 → l.length ≤ f2 →
    scanJsonLoop f1 l = scanJsonLoop f2 l := by
  intro f1
  induction f1 with
  | zero =>
    intro f2 l h1 _
    have hl : l = [] := List.length_eq_zero.mp (by omega)
    subst hl
    cases f2 <;> rfl
  | succ f ih =>
    intro f2 l h1 h2
    cases l with
    | nil => cases f2 <;> rfl
    | cons c t =>
      obtain ⟨g, rfl⟩ : ∃ g, f2 = g + 1 := ⟨f2 - 1, by simp at h2; omega⟩
      simp only [scanJsonLoop]
      cases hstep : scanJsonStep (c :: t) with
      | none => rfl
      | some p =>
        obtain ⟨oc, rest⟩ := p
        have hlen := scanJsonStep_length _ _ _ hstep
        simp only [List.length_cons] at h1 h2 hlen
        cases oc with
        | none => rfl
        | some ch =>
          dsimp only
          rw [ih g rest (by omega) (by omega)]

/-- Scanning the escape of one character yields exactly that character. -/
theorem scanJsonStep_escape (c : Char) (rest : List Char) :
    scanJsonStep (jsonEscChar c ++ rest) = some (some c, rest) := by
  unfold jsonEscChar
  split_ifs with h1 h2 h3 h4 h5 h6 h7 h8
  · subst h1; rfl
  · subst h2; rfl
  · have hc : Char.ofNat 8 = c := by rw [← h3, Char.ofNat_toNat]
    rw [← hc]; rfl
  · have hc : Char.ofNat 9 = c := by rw [← h4, Char.ofNat_toNat]
    rw [← hc]; rfl
  · have hc : Char.ofNat 10 = c := by rw [← h5, Char.ofNat_toNat]
    rw [← hc]; rfl
  · have hc : Char.ofNat 12 = c := by rw [← h6, Char.ofNat_toNat]
    rw [← hc]; rfl
  · have hc : Char.ofNat 13 = c := by rw [← h7, Char.ofNat_toNat]
    rw [← hc]; rfl
  · have hd1 : hexVal (hexDigitChar (c.toNat / 16)) = some (c.toNat / 16) :=
      hexVal_hexDigitChar (by omega)
    have hd2 : hexVal (hexDigitChar (c.toNat % 16)) = some (c.toNat % 16) :=
      hexVal_hexDigitChar (by omega)
    simp [scanJsonStep, hd1, hd2, show hexVal '0' = some 0 from by decide]
    have he : c.toNat / 16 * 16 + c.toNat % 16 = c.toNat := by omega
    rw [he]
    exact ⟨c.valid, Char.ofNat_toNat c⟩
  · simp [scanJsonStep, h1, h2]

/-- Loop form of scanning an escaped string body up to its quote. -/
theorem scanJsonLoop_escape : ∀ v fuel rest,
    (jsonEscape v ++ '"' :: rest).length ≤ fuel →
    scanJsonLoop fuel (jsonEscape v ++ '"' :: rest) = some (v, rest) := by
  intro v
  induction v with
  | nil =>
    intro fuel rest hf
    obtain ⟨f, rfl⟩ : ∃ f, fuel = f + 1 := ⟨fuel - 1, by simp at hf; omega⟩
    show scanJsonLoop (f + 1) ([] ++ '"' :: rest) = some ([], rest)
    rw [List.nil_append]
    simp only [scanJsonLoop]
    rw [show scanJsonStep ('"' :: rest) = some (none, rest) from rfl]
  | cons c cs ih =>
    intro fuel rest hf
    have hesc : jsonEscape (c :: cs) = jsonEscChar c ++ jsonEscape cs := rfl
    rw [hesc, List.append_assoc]
    rw [hesc, List.append_assoc] at hf
    have hlen1 : 1 ≤ (jsonEscChar c).length := by
      cases hc : jsonEscChar c with
      | nil => exact absurd hc (jsonEscChar_ne_nil c)
      | cons x xs => simp
    obtain ⟨f, rfl⟩ : ∃ f, fuel = f + 1 := by
      refine ⟨fuel - 1, ?_⟩
      simp only [List.length_append] at hf
      omega
    obtain ⟨hd, tl, hsplit⟩ : ∃ hd tl,
        jsonEscChar c ++ (jsonEscape cs ++ '"' :: rest) = hd :: tl := by
      cases hc : jsonEscChar c with
      | nil => exact absurd hc (jsonEscChar_ne_nil c)
      | cons x xs => exact ⟨x, xs ++ (jsonEscape cs ++ '"' :: rest), by simp [hc]⟩
    rw [hsplit]
    simp only [scanJsonLoop]
    rw [← hsplit, scanJsonStep_escape]
    dsimp only
    have hle : (jsonEscape cs ++ '"' :: rest).length ≤ f := by
      simp only [List.length_append] at hf ⊢
      omega
    rw [ih f rest hle]
    rfl

/-- Scanning an escaped string body followed by its closing quote yields
the original characters and the remaining input. -/
theorem scanJsonString_escape (v rest : List Char) :
    scanJsonString (jsonEscape v ++ '"' :: rest) = some (v, rest) := by
  unfold scanJsonString
  exact scanJsonLoop_escape v _ rest (le_refl _)

/-! ## Field-level parsing facts -/

/-- String field step on its own serialization. -/
theorem fieldString_append (lit v tail : List Char) :
    fieldString lit (lit ++ (jsonEscape v ++ '"' :: tail)) = some (v, tail) := by
  simp only [fieldString, expectChars_append]
  exact scanJsonString_escape v tail

/-- Natural field step on its own serialization. -/
theorem fieldNat_append (lit : List Char) (n : Nat) (tail : List Char)
    (ht : ∀ c, tail.head? = some c → isDigitChar c = false) :
    fieldNat lit (lit ++ (natReprChars n ++ tail)) = some (n, tail) := by
  simp only [fieldNat, expectChars_append]
  exact scanNat_natReprChars n tail ht

/-- Integer field step on its own serialization. -/
theorem fieldInt_append (lit : List Char) (i : Int) (tail : List Char)
    (ht : ∀ c, tail.head? = some c → isDigitChar c = false) :
    fieldInt lit (lit ++ (intReprChars i ++ tail)) = some (i, tail) := by
  simp only [fieldInt, expectChars_append]
  exact scanInt_intReprChars i tail ht

/-- The closing step accepts exactly the closing brace. -/
theorem fieldEnd_brace : fieldEnd (("\x7d").data) = some () := rfl

/-- Head of a list starting with a known literal. -/
theorem head_of_lit_append {s : List Char} {a : Char} {l : List Char} (hs : s = a :: l)
    (X : List Char) : (s ++ X).head? = some a := by
  subst hs
  rfl

/-- Parsing inverts the serialization of the claims object. -/
theorem parseClaimsJson_jsonClaims (c : Claims) :
    parseClaimsJson (jsonClaims c) = some c := by
  have hform : jsonClaims c =
      ("\x7b\"app_key\":\"").data ++ (jsonEscape c.app_key ++ '"' ::
        ((",\"role_type\":").data ++ (intReprChars c.role_type ++
        ((",\"iat\":").data ++ (natReprChars c.iat ++
        ((",\"exp\":").data ++ (natReprChars c.exp ++
        ((",\"user_id\":\"").data ++ (jsonEscape c.user_id ++ '"' ::
        ((",\"user_name\":\"").data ++ (jsonEscape c.user_name ++ '"' ::
        ((",\"enable_byop\":").data ++ (natReprChars c.enable_byop ++
        ("\x7d").data))))))))))))) := by
    unfold jsonClaims
    rw [(by decide : ("\",\"role_type\":").data = '"' :: (",\"role_type\":").data),
      (by decide : ("\",\"user_name\":\"").data = '"' :: (",\"user_name\":\"").data),
      (by decide : ("\",\"enable_byop\":").data = '"' :: (",\"enable_byop\":").data)]
    simp [List.append_assoc]
  unfold parseClaimsJson
  rw [hform, fieldString_append]
  dsimp only
  rw [fieldInt_append _ _ _ (by
    intro cc hc
    rw [head_of_lit_append (by decide : ((",\"iat\":").data : List Char)
      = ',' :: ("\"iat\":").data)] at hc
    simp only [Option.some.injEq] at hc
    subst hc
    decide)]
  dsimp only
  rw [fieldNat_append _ _ _ (by
    intro cc hc
    rw [head_of_lit_append (by decide : ((",\"exp\":").data : List Char)
      = ',' :: ("\"exp\":").data)] at hc
    simp only [Option.some.injEq] at hc
    subst hc
    decide)]
  dsimp only
  rw [fieldNat_append _ _ _ (by
    intro cc hc
    rw [head_of_lit_append (by decide : ((",\"user_id\":\"").data : List Char)
      = ',' :: ("\"user_id\":\"").data)] at hc
    simp only [Option.some.injEq] at hc
    subst hc
    decide)]
  dsimp only
  rw [fieldString_append]
  dsimp only
  rw [fieldString_append]
  dsimp only
  rw [fieldNat_append _ _ _ (by
    intro cc hc
    rw [show (("\x7d").data : List Char).head? = some '\x7d' from rfl] at hc
    simp only [Option.some.injEq] at hc
    subst hc
    decide)]
  dsimp only
  rw [fieldEnd_brace]

/-- Parsing inverts the serialization of the fixed header. -/
theorem parseHeaderJson_fixed : parseHeaderJson (jsonHeader fixedHeader) = some fixedHeader := by
  decide

/-! ## Digest shape facts -/

/-- Big-endian byte renderings consist of bytes. -/
theorem natToBytesBE_lt : ∀ k n, ∀ b ∈ natToBytesBE k n, b < 256 := by
  intro k
  induction k with
  | zero => intro n b hb; simp [natToBytesBE] at hb
  | succ k ih =>
    intro n b hb
    simp only [natToBytesBE, List.mem_append, List.mem_singleton] at hb
    rcases hb with hb | rfl
    · exact ih _ _ hb
    · exact Nat.mod_lt _ (by omega)

/-- Big-endian byte renderings have the requested width. -/
theorem natToBytesBE_length : ∀ k n, (natToBytesBE k n).length = k := by
  intro k
  induction k with
  | zero => intro n; rfl
  | succ k ih => intro n; simp [natToBytesBE, ih]

/-- Rendered hash states are 32 bytes long. -/
theorem stateBytes_length (s : Sha256State) : (stateBytes s).length = 32 := by
  obtain ⟨a, b, c, d, e, f, g, h⟩ := s
  simp [stateBytes, natToBytesBE_length]

/-- Rendered hash states consist of bytes. -/
theorem stateBytes_lt (s : Sha256State) : ∀ b ∈ stateBytes s, b < 256 := by
  obtain ⟨a, b, c, d, e, f, g, h⟩ := s
  intro x hx
  simp only [stateBytes, List.mem_append] at hx
  rcases hx with ((((((hx | hx) | hx) | hx) | hx) | hx) | hx) | hx <;>
    exact natToBytesBE_lt _ _ _ hx

/-- SHA-256 digests are 32 bytes long. -/
theorem sha256_length (msg : List Nat) : (sha256 msg).length = 32 :=
  stateBytes_length _

/-- SHA-256 digests consist of bytes. -/
theorem sha256_lt (msg : List Nat) : ∀ b ∈ sha256 msg, b < 256 :=
  stateBytes_lt _

/-- HMAC digests are 32 bytes long. -/
theorem hmacSha256_length (key m : List Nat) : (hmacSha256 key m).length = 32 := by
  unfold hmacSha256
  exact sha256_length _

/-- HMAC digests consist of bytes. -/
theorem hmacSha256_lt (key m : List Nat) : ∀ b ∈ hmacSha256 key m, b < 256 := by
  unfold hmacSha256
  exact sha256_lt _

/-- Defaulted indexing into an HMAC digest stays below 256. -/
theorem hmac_getD_lt (key m : List Nat) (j : Nat) : (hmacSha256 key m).getD j 0 < 256 := by
  rw [List.getD_eq_getElem?_getD]
  by_cases hj : j < (hmacSha256 key m).length
  · rw [List.getElem?_eq_getElem hj]
    exact hmacSha256_lt key m _ (List.getElem_mem _)
  · rw [List.getElem?_eq_none (by omega)]
    norm_num

/-! ## Token structure -/

/-- Signature segments contain no dot. -/
theorem signatureSegment_no_dot (k s : List Char) (r : Int) (n i : Nat) :
    '.' ∉ signatureSegment k s r n i := by
  unfold signatureSegment
  exact b64UrlEncode_no_dot _

/-- Tokens split into exactly their three segments. -/
theorem splitDots_token (k s : List Char) (r : Int) (n i : Nat) :
    splitDots (generateToken k s r n i)
      = [b64UrlEncode (utf8Bytes (jsonHeader fixedHeader)),
         b64UrlEncode (utf8Bytes (jsonClaims (buildClaims k r n i))),
         signatureSegment k s r n i] := by
  have hassoc : generateToken k s r n i
      = b64UrlEncode (utf8Bytes (jsonHeader fixedHeader)) ++ '.' ::
          (b64UrlEncode (utf8Bytes (jsonClaims (buildClaims k r n i))) ++ '.' ::
            signatureSegment k s r n i) := by
    unfold generateToken signingInput
    simp [List.append_assoc]
  rw [hassoc]
  exact splitDots_three _ _ _ (b64UrlEncode_no_dot _) (b64UrlEncode_no_dot _)
    (signatureSegment_no_dot k s r n i)

/-- Master decoding fact: decoding a generated token recovers the fixed
header and the claims built from the call's inputs. -/
theorem decodeToken_generateToken (k s : List Char) (r : Int) (n i : Nat) :
    decodeToken (generateToken k s r n i) = .ok (fixedHeader, buildClaims k r n i) := by
  unfold decodeToken
  rw [splitDots_token]
  dsimp only
  rw [b64UrlDecode_encode _ (utf8Bytes_lt _)]
  dsimp only
  rw [utf8Decode_utf8Bytes]
  dsimp only
  rw [parseHeaderJson_fixed]
  dsimp only
  rw [b64UrlDecode_encode _ (utf8Bytes_lt _)]
  dsimp only
  rw [utf8Decode_utf8Bytes]
  dsimp only
  rw [parseClaimsJson_jsonClaims]

/-- Verification succeeds with the signing secret. -/
theorem verifyToken_same (k s : List Char) (r : Int) (n i : Nat) :
    verifyToken (generateToken k s r n i) s = .ok true := by
  unfold verifyToken
  rw [splitDots_token]
  dsimp only
  exact congrArg Except.ok (decide_eq_true rfl)

/-- Verification answers true exactly when the candidate secret's signature
matches the token's. -/
theorem verifyToken_other (k s s2 : List Char) (r : Int) (n i : Nat) :
    verifyToken (generateToken k s r n i) s2
      = .ok (decide (hmacSha256 (utf8Bytes s2) (utf8Bytes (signingInput k r n i))
          = hmacSha256 (utf8Bytes s) (utf8Bytes (signingInput k r n i)))) := by
  unfold verifyToken
  rw [splitDots_token]
  dsimp only
  refine congrArg Except.ok (decide_eq_decide.mpr ?_)
  constructor
  · intro hc
    have h1 := congrArg b64UrlDecode hc
    rw [show signatureSegment k s r n i
        = b64UrlEncode (hmacSha256 (utf8Bytes s) (utf8Bytes (signingInput k r n i))) from rfl,
      b64UrlDecode_encode _ (hmacSha256_lt _ _), b64UrlDecode_encode _ (hmacSha256_lt _ _)] at h1
    simp only [Option.some.injEq] at h1
    exact h1.symm
  · intro heq
    rw [show signatureSegment k s r n i
        = b64UrlEncode (hmacSha256 (utf8Bytes s) (utf8Bytes (signingInput k r n i))) from rfl,
      ← heq]
    rfl

/-- Verification with a wrong secret answers false whenever the two
signatures differ. -/
theorem verifyToken_wrong (k s s2 : List Char) (r : Int) (n i : Nat)
    (hne : hmacSha256 (utf8Bytes s2) (utf8Bytes (signingInput k r n i))
      ≠ hmacSha256 (utf8Bytes s) (utf8Bytes (signingInput k r n i))) :
    verifyToken (generateToken k s r n i) s2 = .ok false := by
  rw [verifyToken_other, decide_eq_false hne]

/-- Verification fails with `MalformedToken` exactly on inputs that do not
split into three segments. -/
theorem verifyToken_malformed_iff (t s : List Char) :
    verifyToken t s = .error TokenError.MalformedToken ↔ (splitDots t).length ≠ 3 := by
  unfold verifyToken
  rcases hsp : splitDots t with _ | ⟨a, _ | ⟨b, _ | ⟨c, _ | ⟨d, tl⟩⟩⟩⟩ <;> simp

/-- Decoding fails with `MalformedToken` on inputs that do not split into
three segments. -/
theorem decodeToken_malformed (t : List Char) (h : (splitDots t).length ≠ 3) :
    decodeToken t = .error TokenError.MalformedToken := by
  unfold decodeToken
  rcases hsp : splitDots t with _ | ⟨a, _ | ⟨b, _ | ⟨c, _ | ⟨d, tl⟩⟩⟩⟩ <;>
    simp_all

/-! ## Server boundary facts -/

/-- Non-POST requests, absent role fields and the falsy role 0 all select
the default role 1. -/
theorem effectiveRole_default (req : TokenRequest)
    (h : req.method ≠ HttpMethod.POST ∨ req.bodyRole = none ∨ req.bodyRole = some 0) :
    effectiveRole req = 1 := by
  unfold effectiveRole
  rcases h with h | h | h
  · rw [if_neg h]
  · split_ifs with hm
    · rw [h]
    · rfl
  · split_ifs with hm
    · rw [h]
      simp
    · rfl

/-- With configured credentials the handler answers 200 with the generated
token and the selected role echoed. -/
theorem handleTokenRequest_ok (cfg : ServerConfig) (req : TokenRequest) (n i : Nat)
    (hk : cfg.sdkKey ≠ placeholderKey) (hs : cfg.sdkSecret ≠ placeholderSecret) :
    handleTokenRequest cfg req n i
      = .ok ⟨generateToken cfg.sdkKey cfg.sdkSecret (effectiveRole req) n i,
             effectiveRole req, tokenExpiry, zoomDomain⟩ := by
  unfold handleTokenRequest
  rw [if_neg (not_or.mpr ⟨hk, hs⟩)]

/-- Rewritten form of the token as its three dot-separated segments. -/
theorem generateToken_parts (k s : List Char) (r : Int) (n i : Nat) :
    generateToken k s r n i
      = b64UrlEncode (utf8Bytes (jsonHeader fixedHeader)) ++ '.' ::
          (b64UrlEncode (utf8Bytes (jsonClaims (buildClaims k r n i))) ++ '.' ::
            signatureSegment k s r n i) := by
  unfold generateToken signingInput
  simp [List.append_assoc]

/-- Padding characters never survive into the URL-safe encoding. -/
theorem b64UrlEncode_no_pad (bs : List Nat) : '=' ∉ b64UrlEncode bs := by
  intro hmem
  unfold b64UrlEncode at hmem
  have hp := (List.mem_filter.mp hmem).2
  simp at hp

/-- Distinct millisecond readings render to distinct identifier strings. -/
theorem userIdChars_inj {i1 i2 : Nat} (h : userIdChars i1 = userIdChars i2) : i1 = i2 := by
  unfold userIdChars at h
  have h2 : natReprChars i1 = natReprChars i2 := List.append_cancel_left h
  have h3 := congrArg (fun l => digitsVal l 0) h2
  simp only at h3
  rw [digitsVal_natReprChars, digitsVal_natReprChars] at h3
  exact h3

/-- Validation of the SHA-256 embedding against the FIPS 180-4 test vector
for the message `abc`. -/
theorem sha256_test_vector : sha256 [0x61, 0x62, 0x63] =
    [0xba, 0x78, 0x16, 0xbf, 0x8f, 0x01, 0xcf, 0xea, 0x41, 0x41, 0x40, 0xde,
     0x5d, 0xae, 0x22, 0x23, 0xb0, 0x03, 0x61, 0xa3, 0x96, 0x17, 0x7a, 0x9c,
     0xb4, 0x10, 0xff, 0x61, 0xf2, 0x00, 0x15, 0xad] := by
  decide

/-- Validation of the HMAC-SHA256 embedding against test case 2 of RFC
4231: key `Jefe`, message `what do ya want for nothing?`. -/
theorem hmacSha256_test_vector :
    hmacSha256 [0x4a, 0x65, 0x66, 0x65]
      (utf8Bytes ("what do ya want for nothing?").data) =
    [0x5b, 0xdc, 0xc1, 0x46, 0xbf, 0x60, 0x75, 0x4e, 0x6a, 0x04, 0x24, 0x26,
     0x08, 0x95, 0x75, 0xc7, 0x5a, 0x00, 0x3f, 0x08, 0x9d, 0x27, 0x39, 0x83,
     0x9d, 0xec, 0x58, 0xb9, 0x64, 0xec, 0x38, 0x43] := by
  decide

/-! ## Claims -/

/-- C1: round-trip — decoding the token produced by the encoder yields
claims whose `app_key` equals the given key, whose `role_type` equals the
given role (any integer accepted and embedded verbatim), and whose
`enable_byop` equals 1. -/
theorem claim_C1 (key secret : List Char) (role : Int) (nowMs idMs : Nat) :
    ∃ hd c, decodeToken (generateToken key secret role nowMs idMs) = .ok (hd, c)
      ∧ c.app_key = key ∧ c.role_type = role ∧ c.enable_byop = 1 :=
  ⟨fixedHeader, buildClaims key role nowMs idMs,
    decodeToken_generateToken key secret role nowMs idMs, rfl, rfl, rfl⟩

/-- C2 (counterexample): it is not true that verification with any secret
other than the signing secret answers false — by pigeonhole over the
infinitely many secrets and the finitely many 32-byte digests, two distinct
secrets share a signature, and verification accepts the wrong one. -/
theorem claim_C2_counterexample :
    ¬ (∀ (key sA sB : List Char) (r : Int) (n i : Nat), sA ≠ sB →
        verifyToken (generateToken key sA r n i) sB = Except.ok false) := by
  intro hP
  obtain ⟨sA, sB, hne, hfeq⟩ := Finite.exists_ne_map_eq_of_infinite
    (fun s : List Char => (fun j : Fin 32 =>
      (⟨(hmacSha256 (utf8Bytes s) (utf8Bytes (signingInput [] 1 0 0))).getD j.1 0,
        hmac_getD_lt _ _ _⟩ : Fin 256)))
  have heq : hmacSha256 (utf8Bytes sA) (utf8Bytes (signingInput [] 1 0 0))
      = hmacSha256 (utf8Bytes sB) (utf8Bytes (signingInput [] 1 0 0)) := by
    apply List.ext_getElem
    · rw [hmacSha256_length, hmacSha256_length]
    · intro j hj1 hj2
      have hj32 : j < 32 := by rw [hmacSha256_length] at hj1; exact hj1
      have hcong := congrFun hfeq ⟨j, hj32⟩
      have hval := congrArg Fin.val hcong
      simp only at hval
      rwa [List.getD_eq_getElem?_getD, List.getD_eq_getElem?_getD,
        List.getElem?_eq_getElem hj1, List.getElem?_eq_getElem hj2] at hval
  have hfalse := hP [] sA sB 1 0 0 hne
  have htrue : verifyToken (generateToken [] sA 1 0 0) sB = .ok true := by
    rw [verifyToken_other, heq]
    exact congrArg Except.ok (decide_eq_true rfl)
  rw [hfalse] at htrue
  simp at htrue

/-- C2 (amended): verification with the signing secret answers true;
verification with another secret answers false whenever that secret's
signature over the signing input differs from the signing secret's (true of
any secret pair in practice, but not universally, since distinct secrets
can collide on a 256-bit digest); and verification fails with
`MalformedToken` exactly when the token does not have three segments. -/
theorem claim_C2 (key sA sB : List Char) (r : Int) (n i : Nat) :
    verifyToken (generateToken key sA r n i) sA = .ok true
    ∧ (hmacSha256 (utf8Bytes sB) (utf8Bytes (signingInput key r n i))
        ≠ hmacSha256 (utf8Bytes sA) (utf8Bytes (signingInput key r n i)) →
      verifyToken (generateToken key sA r n i) sB = .ok false)
    ∧ (∀ t s2, verifyToken t s2 = .error TokenError.MalformedToken
        ↔ (splitDots t).length ≠ 3) :=
  ⟨verifyToken_same key sA r n i,
   fun hne => verifyToken_wrong key sA sB r n i hne,
   fun t s2 => verifyToken_malformed_iff t s2⟩

/-- Witness for C2 at the concrete scenario of the specification: the
wrong secret `wrongsecret` is rejected. -/
theorem claim_C2_witness :
    verifyToken (generateToken ("key123").data ("secret456").data 2 0 0)
      ("wrongsecret").data = Except.ok false :=
  (claim_C2 ("key123").data ("secret456").data ("wrongsecret").data 2 0 0).2.1 (by decide)

/-- C3: signature determinism — re-signing an identical header and claims
pair under the same secret, and re-encoding under identical explicit inputs
including the stubbed clock readings, yield byte-identical results. -/
theorem claim_C3 (k1 k2 s1 s2 : List Char) (r1 r2 : Int) (n1 n2 i1 i2 : Nat)
    (hk : k1 = k2) (hs : s1 = s2) (hr : r1 = r2) (hn : n1 = n2) (hi : i1 = i2) :
    signatureSegment k1 s1 r1 n1 i1 = signatureSegment k2 s2 r2 n2 i2
    ∧ generateToken k1 s1 r1 n1 i1 = generateToken k2 s2 r2 n2 i2 := by
  subst hk hs hr hn hi
  exact ⟨rfl, rfl⟩

/-- Witness for C3 at concrete inputs. -/
theorem claim_C3_witness :
    signatureSegment ("k").data ("s").data 1 2 3 = signatureSegment ("k").data ("s").data 1 2 3
    ∧ generateToken ("k").data ("s").data 1 2 3 = generateToken ("k").data ("s").data 1 2 3 :=
  claim_C3 ("k").data ("k").data ("s").data ("s").data 1 1 2 2 3 3 rfl rfl rfl rfl rfl

/-- C4: expiry invariant — the decoded claims satisfy
`exp = iat + tokenExpiry` exactly, where `tokenExpiry` is the configured
3600-second lifetime and not an input of the encoder. -/
theorem claim_C4 (key secret : List Char) (role : Int) (nowMs idMs : Nat) :
    ∃ hd c, decodeToken (generateToken key secret role nowMs idMs) = .ok (hd, c)
      ∧ c.exp = c.iat + tokenExpiry ∧ tokenExpiry = 3600 :=
  ⟨fixedHeader, buildClaims key role nowMs idMs,
    decodeToken_generateToken key secret role nowMs idMs, rfl, rfl⟩

/-- C5: token shape — every produced token contains exactly two dot
characters and splits into exactly three segments, because no URL-safe
base64 segment contains a dot. -/
theorem claim_C5 (key secret : List Char) (role : Int) (nowMs idMs : Nat) :
    (generateToken key secret role nowMs idMs).count '.' = 2
    ∧ (splitDots (generateToken key secret role nowMs idMs)).length = 3 := by
  constructor
  · rw [generateToken_parts, List.count_append]
    rw [List.count_eq_zero.mpr (b64UrlEncode_no_dot _)]
    simp [List.count_cons, List.count_eq_zero.mpr (b64UrlEncode_no_dot _),
      List.count_eq_zero.mpr (signatureSegment_no_dot key secret role nowMs idMs)]
  · rw [splitDots_token]
    rfl

/-- C6: encoding scheme — the token is the three segments joined by dots;
each segment is standard base64 with `+`→`-`, `/`→`_` and all padding
removed (equivalently, direct URL-safe unpadded base64, and no `=` ever
remains); the header and claims segments encode the UTF-8 JSON
serialization of their objects; and the signature segment encodes the raw
HMAC-SHA256 bytes over the ASCII signing input under the secret. -/
theorem claim_C6 (key secret : List Char) (role : Int) (nowMs idMs : Nat) :
    generateToken key secret role nowMs idMs
      = signingInput key role nowMs idMs ++ '.' ::
          b64UrlEncode (hmacSha256 (utf8Bytes secret) (utf8Bytes (signingInput key role nowMs idMs)))
    ∧ signingInput key role nowMs idMs
      = b64UrlEncode (utf8Bytes (jsonHeader fixedHeader)) ++ '.' ::
          b64UrlEncode (utf8Bytes (jsonClaims (buildClaims key role nowMs idMs)))
    ∧ (∀ bs, b64UrlEncode bs
        = (replAll '/' '_' (replAll '+' '-' (b64StdEncode bs))).filter (fun c => c ≠ '='))
    ∧ (∀ bs, b64UrlEncode bs = b64UrlDirect bs)
    ∧ (∀ bs, '=' ∉ b64UrlEncode bs) :=
  ⟨rfl, rfl, fun _ => rfl, b64UrlEncode_eq_direct, b64UrlEncode_no_pad⟩

/-- C7 (counterexample): the encoder does not reject an empty key or
secret — with both empty it still produces a well-formed token that
decodes to claims with an empty `app_key`, so no `InvalidArgument` failure
occurs. -/
theorem claim_C7_counterexample :
    decodeToken (generateToken [] [] 1 0 0) = .ok (fixedHeader, buildClaims [] 1 0 0)
    ∧ (buildClaims [] 1 0 0).app_key = [] :=
  ⟨decodeToken_generateToken [] [] 1 0 0, rfl⟩

/-- C7 (amended): the encoder performs no validation of key or secret: an
empty (or any) key and secret are accepted, and the token is produced
normally, embedding the empty key verbatim. -/
theorem claim_C7 (secret : List Char) (role : Int) (nowMs idMs : Nat) :
    ∃ hd c, decodeToken (generateToken [] secret role nowMs idMs) = .ok (hd, c)
      ∧ c.app_key = [] :=
  ⟨fixedHeader, buildClaims [] role nowMs idMs,
    decodeToken_generateToken [] secret role nowMs idMs, rfl⟩

/-- C8 (counterexample): two encoder calls with different keys, secrets,
roles and seconds clocks but the same millisecond reading for the
identifier produce the same `user_id`, refuting per-process uniqueness. -/
theorem claim_C8_counterexample :
    ∃ hd1 c1 hd2 c2,
      decodeToken (generateToken ("a").data ("sa").data 1 0 5) = .ok (hd1, c1)
      ∧ decodeToken (generateToken ("b").data ("sb").data 2 99000 5) = .ok (hd2, c2)
      ∧ c1.user_id = c2.user_id :=
  ⟨fixedHeader, buildClaims ("a").data 1 0 5, fixedHeader, buildClaims ("b").data 2 99000 5,
    decodeToken_generateToken _ _ _ _ _, decodeToken_generateToken _ _ _ _ _, rfl⟩

/-- C8 (amended): two encoder calls observing distinct millisecond clock
readings for the identifier produce distinct `user_id` values; calls within
the same millisecond repeat the identifier. -/
theorem claim_C8 (k1 k2 : List Char) (r1 r2 : Int) (n1 n2 i1 i2 : Nat) (h : i1 ≠ i2) :
    (buildClaims k1 r1 n1 i1).user_id ≠ (buildClaims k2 r2 n2 i2).user_id :=
  fun hc => h (userIdChars_inj hc)

/-- Witness for C8 at two concrete distinct millisecond readings. -/
theorem claim_C8_witness :
    (buildClaims ("k").data 1 0 0).user_id ≠ (buildClaims ("k").data 1 0 1).user_id :=
  claim_C8 ("k").data ("k").data 1 1 0 0 0 1 (by decide)

/-- C9: in every produced token the `user_name` claim equals the `user_id`
claim — both are the same generated identifier string. -/
theorem claim_C9 (key secret : List Char) (role : Int) (nowMs idMs : Nat) :
    ∃ hd c, decodeToken (generateToken key secret role nowMs idMs) = .ok (hd, c)
      ∧ c.user_name = c.user_id :=
  ⟨fixedHeader, buildClaims key role nowMs idMs,
    decodeToken_generateToken key secret role nowMs idMs, rfl⟩

/-- C10: at the HTTP boundary, with configured credentials, any request
that is not a POST, lacks a `role` field, or carries the falsy role 0 is
served a token embedding `role_type` 1 and a response echoing role 1. -/
theorem claim_C10 (cfg : ServerConfig) (req : TokenRequest) (nowMs idMs : Nat)
    (hk : cfg.sdkKey ≠ placeholderKey) (hs : cfg.sdkSecret ≠ placeholderSecret)
    (hreq : req.method ≠ HttpMethod.POST ∨ req.bodyRole = none ∨ req.bodyRole = some 0) :
    ∃ resp, handleTokenRequest cfg req nowMs idMs = HttpReply.ok resp
      ∧ resp.role = 1
      ∧ ∃ hd c, decodeToken resp.token = .ok (hd, c) ∧ c.role_type = 1 := by
  refine ⟨_, handleTokenRequest_ok cfg req nowMs idMs hk hs, ?_, ?_⟩
  · exact effectiveRole_default req hreq
  · refine ⟨fixedHeader, buildClaims cfg.sdkKey (effectiveRole req) nowMs idMs,
      decodeToken_generateToken _ _ _ _ _, ?_⟩
    exact effectiveRole_default req hreq

/-- Witness for C10: a GET request against configured credentials. -/
theorem claim_C10_witness :
    ∃ resp, handleTokenRequest ⟨("k").data, ("s").data⟩ ⟨HttpMethod.GET, none⟩ 0 0
        = HttpReply.ok resp
      ∧ resp.role = 1
      ∧ ∃ hd c, decodeToken resp.token = .ok (hd, c) ∧ c.role_type = 1 :=
  claim_C10 ⟨("k").data, ("s").data⟩ ⟨HttpMethod.GET, none⟩ 0 0
    (by decide) (by decide) (Or.inl (by decide))

end Cobrowse

